import Mathlib

/-!
Verification of the path-resolution and process-identity subsystem.

Paths are modelled as `List Char` (the UTF-8 string form of a Unix path);
environment lookups and OS identity primitives are external collaborators and
are passed in as explicit parameters.  All definitions are translated from the
Rust sources (`sys/src/path.rs`, `src/sys/user.rs`) together with the pieces of
the Rust standard library they call (`Path::components`, `PathBuf::push`,
`Path::parent`, `str::trim_start_matches`, `str::trim_end_matches`,
`u32::from_str`).
-/

namespace Rs

/-- Decidable equality for `Except`, so that concrete runs of the fallible
operations can be checked by `decide`. -/
instance {ε α : Type} [DecidableEq ε] [DecidableEq α] : DecidableEq (Except ε α) := fun x y =>
  match x, y with
  | Except.ok a, Except.ok b =>
    if h : a = b then isTrue (by rw [h])
    else isFalse (fun hc => h (by injection hc))
  | Except.error a, Except.error b =>
    if h : a = b then isTrue (by rw [h])
    else isFalse (fun hc => h (by injection hc))
  | Except.ok _, Except.error _ => isFalse (fun hc => by injection hc)
  | Except.error _, Except.ok _ => isFalse (fun hc => by injection hc)

/-! ## String-level helpers (std `str` operations used by the sources) -/

/-- Split a character list on every occurrence of `sep`, keeping empty pieces,
as Rust's `str::split` does: `splitOnChar '/' "a//b" = ["a", "", "b"]`. -/
def splitOnChar (sep : Char) : List Char → List (List Char)
  | [] => [[]]
  | c :: t =>
    if c = sep then [] :: splitOnChar sep t
    else
      match splitOnChar sep t with
      | [] => [[c]]
      | s :: ss => (c :: s) :: ss

/-- Join pieces with a separator character, the inverse of `splitOnChar`. -/
def joinChar (sep : Char) : List (List Char) → List Char
  | [] => []
  | [x] => x
  | x :: xs => x ++ sep :: joinChar sep xs

/-- Substring containment test, as Rust's `str::contains` with a string pattern. -/
def str_contains (s pat : List Char) : Bool :=
  if pat.isPrefixOf s then true
  else
    match s with
    | [] => false
    | _ :: t => str_contains t pat

/-- Repeatedly strip a leading occurrence of `pat`, with fuel bounded by the
string length (each strip removes at least one character when `pat` is
nonempty, so `s.length` steps always suffice). -/
def stripStartFuel : Nat → List Char → List Char → List Char
  | 0, _, s => s
  | Nat.succ n, pat, s =>
    if pat ≠ [] ∧ pat.isPrefixOf s then stripStartFuel n pat (s.drop pat.length) else s

/-- Rust `str::trim_start_matches` with a string pattern: all prefixes that
match the pattern are repeatedly removed. -/
def trim_start_matches_str (pat s : List Char) : List Char :=
  stripStartFuel s.length pat s

/-- Rust `str::trim_end_matches` with a string pattern: all suffixes that
match the pattern are repeatedly removed. -/
def trim_end_matches_str (pat s : List Char) : List Char :=
  (trim_start_matches_str pat.reverse s.reverse).reverse

/-- ASCII lowercasing of a string, modelling Rust's `str::to_lowercase` on the
ASCII inputs this subsystem deals in. -/
def to_lowercase (s : List Char) : List Char := s.map Char.toLower

/-- Count occurrences of a character, as `str::matches(pat).count()` with a
single-character pattern. -/
def count_char (c : Char) (s : List Char) : Nat := (s.filter (fun d => d = c)).length

/-! ## `std::path` semantics on Unix

The Rust sources lean on `std::path::Path`/`PathBuf`; the pieces they use are
embedded here: component parsing (`Path::components`), pushing
(`PathBuf::push`, also `Path::join`), and `Path::parent`. -/

/-- True when the path has a filesystem root, i.e. begins with a separator
(`Path::has_root` / `Path::is_absolute` on Unix). -/
def hasRoot : List Char → Bool
  | [] => false
  | c :: _ => c = '/'

/-- True when component iteration yields a leading `CurDir` component: the path
is relative and starts with a `.` segment (std's `Components::include_cur_dir`). -/
def includeCurDir : List Char → Bool
  | [] => false
  | [c] => c = '.'
  | c :: d :: _ => c = '.' && d = '/'

/-- A parsed path component (`std::path::Component`, Unix: no prefixes). -/
inductive Comp where
  | rootDir : Comp
  | curDir : Comp
  | parentDir : Comp
  | normal : List Char → Comp
deriving DecidableEq

/-- Parse one piece of the path body (std's `parse_single_component`): empty
pieces and non-leading `.` pieces are normalized away. -/
def parseSeg? (s : List Char) : Option Comp :=
  if s = [] then none
  else if s = ['.'] then none
  else if s = ['.', '.'] then some Comp.parentDir
  else some (Comp.normal s)

/-- Component iteration of a Unix path (`Path::components` as a list): an
optional root, an optional leading current-directory marker, then the
normalized body pieces. -/
def components (p : List Char) : List Comp :=
  (if hasRoot p then [Comp.rootDir] else if includeCurDir p then [Comp.curDir] else [])
    ++ (splitOnChar '/' p).filterMap parseSeg?

/-- String form of a component (`Component::as_os_str`). -/
def compStr : Comp → List Char
  | Comp.rootDir => ['/']
  | Comp.curDir => ['.']
  | Comp.parentDir => ['.', '.']
  | Comp.normal s => s

/-- True when a separator must be inserted before appending: the buffer's last
byte exists and is not a separator (`PathBuf::push`'s `need_sep`). -/
def needSep (buf : List Char) : Bool :=
  match buf.getLast? with
  | some c => !(c = '/')
  | none => false

/-- Rust `PathBuf::push` (also `Path::join`) on Unix: an absolute argument
replaces the buffer, otherwise the argument is appended behind a separator
when one is needed. -/
def push (buf p : List Char) : List Char :=
  if hasRoot p then p
  else if needSep buf then buf ++ '/' :: p
  else buf ++ p

/-- Fold of `PathBuf::push` over a component list, as `clean`'s loop performs. -/
def renderComps (cs : List Comp) : List Char :=
  List.foldl (fun b c => push b (compStr c)) [] cs

/-- Pieces that `Components` back-parsing normalizes away: empty pieces and
non-leading `.` pieces. -/
def isJunk (s : List Char) : Bool := s = [] || s = ['.']

/-- Drop trailing normalized-away pieces, as std's `Components::trim_right`
does while re-slicing from the back. -/
def rdropJunk (ps : List (List Char)) : List (List Char) :=
  (ps.reverse.dropWhile (fun s => isJunk s)).reverse

/-- Offset where the path body begins: past the root separator or the leading
current-directory marker (std's `Components::len_before_body`). -/
def lenBeforeBody (p : List Char) : Nat :=
  (if hasRoot p then 1 else 0) + (if includeCurDir p then 1 else 0)

/-- Rust `Path::parent` on Unix: consume one real component from the back
(skipping separators and `.` pieces), then return the remaining slice with
trailing separators and `.` pieces trimmed; `none` when iteration ends at the
root or the path is empty. -/
def parent (p : List Char) : Option (List Char) :=
  let front := p.take (lenBeforeBody p)
  let pieces := splitOnChar '/' (p.drop (lenBeforeBody p))
  match rdropJunk pieces with
  | [] => if includeCurDir p then some [] else none
  | ps => some (front ++ joinChar '/' (rdropJunk ps.dropLast))

/-! ## Error taxonomy of the path operations -/

/-- Path operation errors (`core/src/path_error.rs`; the `sys` crate raises
these conditions as `io::Error` values with equivalent messages, and
`homeNotSet` stands for the error of the external home-directory provider
when `HOME` is unset). -/
inductive PathError where
  | empty
  | failedToString
  | fileNameNotFound
  | invalidExpansion
  | multipleHomeSymbols
  | parentNotFound
  | homeNotSet
deriving DecidableEq

/-! ## The `PathExt` operations (`sys/src/path.rs`) -/

/-- The `clean` extension: iterates `self.components()` pushing every component
onto a fresh buffer (the `ParentDir` branch of the loop is an empty `if` in the
source, so `..` components are pushed through unchanged), then returns `.` when
the buffer came out empty. -/
def clean (p : List Char) : List Char :=
  let b := renderComps (components p)
  if b = [] then ['.'] else b

/-- The `dirname` extension: `Path::parent`, with `none` turned into the
parent-not-found error. -/
def dirname (p : List Char) : Except PathError (List Char) :=
  match parent p with
  | some q => Except.ok q
  | none => Except.error PathError.parentNotFound

/-- The `expand` extension: tilde expansion. Counts `~` occurrences; more than
one is an error; exactly one requires the (buggy, containment-based)
`starts_with_str "~/"` check to pass, after which the home directory is joined
with the string minus its first two characters. The home provider
(`crate::user_home`, the `HOME` variable) is passed as an `Option`. -/
def expand (home : Option (List Char)) (p : List Char) : Except PathError (List Char) :=
  let cnt := count_char '~' p
  if cnt > 1 then Except.error PathError.multipleHomeSymbols
  else if cnt = 1 && !(str_contains p ['~', '/']) then Except.error PathError.invalidExpansion
  else if cnt = 1 then
    match home with
    | some h => Except.ok (push h (p.drop 2))
    | none => Except.error PathError.homeNotSet
  else Except.ok p

/-- The `trim_protocol` extension: lowercases the whole string, then chains
`trim_start_matches` for `file://`, `ftp://`, `http://` and `https://`. -/
def trim_protocol (p : List Char) : List Char :=
  let s0 := to_lowercase p
  let s1 := trim_start_matches_str ("file://".data) s0
  let s2 := trim_start_matches_str ("ftp://".data) s1
  let s3 := trim_start_matches_str ("http://".data) s2
  trim_start_matches_str ("https://".data) s3

/-- The free function `abs` (`sys/src/path.rs`): reject the empty string,
expand the home prefix, trim trailing separators when longer than one
character, and resolve a non-absolute result against the current working
directory with the first-segment `.` and `..` special cases. `cwd` stands for
`env::current_dir()` and `home` for the home-directory provider. -/
def abs (cwd : List Char) (home : Option (List Char)) (p : List Char) :
    Except PathError (List Char) :=
  if p = [] then Except.error PathError.empty
  else
    match expand home p with
    | Except.error e => Except.error e
    | Except.ok pb0 =>
      let pb := if pb0.length > 1 then trim_end_matches_str ['/'] pb0 else pb0
      if hasRoot pb then Except.ok pb
      else
        let seg := (splitOnChar '/' pb).headD []
        if seg = ['.'] then Except.ok (push cwd (pb.drop 1))
        else if seg = ['.', '.'] then
          match parent cwd with
          | some d => Except.ok (push d (pb.drop 2))
          | none => Except.error PathError.parentNotFound
        else Except.ok (push cwd pb)

/-! ## Raw paths and the string predicates

Rust's `Path` wraps an `OsStr` whose bytes may fail UTF-8 conversion; the
string predicates return `false` in that case.  `RawPath` models a path buffer
that either converts to a string or does not. -/

/-- A path buffer: either valid text or an unconvertible byte blob. -/
inductive RawPath where
  | valid : List Char → RawPath
  | invalid : Nat → RawPath
deriving DecidableEq

/-- The `to_string` extension: the string form, failing on unconvertible
content. -/
def RawPath.to_string : RawPath → Option (List Char)
  | RawPath.valid s => some s
  | RawPath.invalid _ => none

/-- The `contains_str` extension: true when the string form contains the given
string; false when conversion fails. -/
def contains_str (p : RawPath) (v : List Char) : Bool :=
  match p.to_string with
  | some s => str_contains s v
  | none => false

/-- The `starts_with_str` extension, translated as written in the source: its
body is identical to `contains_str` (it tests containment, not a prefix). -/
def starts_with_str (p : RawPath) (v : List Char) : Bool :=
  match p.to_string with
  | some s => str_contains s v
  | none => false

/-! ## User identity and XDG directories (`src/sys/user.rs`)

The environment and the OS identity primitives are external collaborators:
the two `SUDO_*` variables are passed as `Option` values, the outcomes of the
`libc::setresgid`/`libc::setresuid` calls as `Option Nat` (`none` meaning the
call returned 0, `some err` meaning it failed with OS error `err`), and the
process identity as an explicit `Ids` record that the primitives update. -/

/-- Rust `str::parse::<u32>`: an optional leading `+`, then one or more ASCII
digits, rejecting overflow past `u32::MAX`. -/
def parse_u32 (s : List Char) : Option Nat :=
  let digits := match s with
    | '+' :: t => t
    | t => t
  if digits ≠ [] && digits.all Char.isDigit then
    let v := digits.foldl (fun a c => a * 10 + (c.toNat - 48)) 0
    if v < 2 ^ 32 then some v else none
  else none

/-- The function `getrids`: when the `uid` argument is 0 and both `SUDO_UID`
and `SUDO_GID` are present and parse as `u32`, return the parsed pair,
otherwise return the arguments unchanged. -/
def getrids (sudoUid sudoGid : Option (List Char)) (uid gid : Nat) : Nat × Nat :=
  match uid with
  | 0 =>
    match sudoUid, sudoGid with
    | some u, some g =>
      match parse_u32 u, parse_u32 g with
      | some nu, some ng => (nu, ng)
      | _, _ => (uid, gid)
    | _, _ => (uid, gid)
  | _ => (uid, gid)

/-- Modelled from the spec CLAIM for comparison (not from the source): the
behavior C4 ascribes to `getrids`, where the `SUDO_*` variables are consulted
exactly when the CURRENT EFFECTIVE id is the privileged id 0. -/
def claim_getrids (euid : Nat) (sudoUid sudoGid : Option (List Char)) (uid gid : Nat) :
    Nat × Nat :=
  if euid = 0 then
    match sudoUid, sudoGid with
    | some u, some g =>
      match parse_u32 u, parse_u32 g with
      | some nu, some ng => (nu, ng)
      | _, _ => (uid, gid)
    | _, _ => (uid, gid)
  else (uid, gid)

/-- The process identity: real, effective and saved user and group ids. -/
structure Ids where
  ruid : Nat
  euid : Nat
  suid : Nat
  rgid : Nat
  egid : Nat
  sgid : Nat
deriving DecidableEq

/-- A recorded call to an OS identity-setting primitive. -/
inductive SysCall where
  | setres_gid : Nat → Nat → Nat → SysCall
  | setres_uid : Nat → Nat → Nat → SysCall
deriving DecidableEq

/-- The function `switchuser`: calls `libc::setresgid` first and, only when it
returns 0, `libc::setresuid`. The call outcomes are injected as `gres`/`ures`;
the returned triple is the function result, the resulting process identity and
the list of primitive calls made, in order. -/
def switchuser (gres ures : Option Nat) (st : Ids) (ruid euid suid rgid egid sgid : Nat) :
    Except Nat Unit × Ids × List SysCall :=
  match gres with
  | some err => (Except.error err, st, [SysCall.setres_gid rgid egid sgid])
  | none =>
    let st1 := Ids.mk st.ruid st.euid st.suid rgid egid sgid
    match ures with
    | some err =>
      (Except.error err, st1, [SysCall.setres_gid rgid egid sgid, SysCall.setres_uid ruid euid suid])
    | none =>
      (Except.ok (), Ids.mk ruid euid suid rgid egid sgid,
        [SysCall.setres_gid rgid egid sgid, SysCall.setres_uid ruid euid suid])

/-- Rust `libc::getuid`: the REAL user id of the process. -/
def getuid (st : Ids) : Nat := st.ruid

/-- The function `drop_sudo`: when `getuid()` (the real uid) is 0, computes the
real ids behind the elevation and switches all three user and group slots to
them; otherwise does nothing and succeeds. -/
def drop_sudo (sudoUid sudoGid : Option (List Char)) (gres ures : Option Nat) (st : Ids) :
    Except Nat Unit × Ids × List SysCall :=
  match getuid st with
  | 0 =>
    let rids := getrids sudoUid sudoGid 0 0
    switchuser gres ures st rids.1 rids.1 rids.1 rids.2 rids.2 rids.2
  | _ => (Except.ok (), st, [])

/-- Modelled from the spec: `sys::parse_paths` is not among the provided
sources (only its callers are); the spec describes the directory lists as
"List of directories separated by :", so it splits the string on `:`. -/
def parse_paths (s : List Char) : List (List Char) := splitOnChar ':' s

/-- The function `data_dirs`: the split value of `XDG_DATA_DIRS` when that
variable is set, else a single-element list holding the unsplit fallback
string. -/
def data_dirs (xdgDataDirs : Option (List Char)) : List (List Char) :=
  match xdgDataDirs with
  | some x => parse_paths x
  | none => ["/usr/local/share:/usr/share".data]

/-! ## Specification vocabulary used by the theorems -/

/-- The protocol prefixes that `trim_protocol` strips. -/
def protoPrefixes : List (List Char) :=
  ["file://".data, "ftp://".data, "http://".data, "https://".data]

/-- Concatenation of pieces, each preceded by a separator: the shape of a
rendered path after its first component. -/
def concatSep (ss : List (List Char)) : List Char :=
  ss.foldr (fun x r => '/' :: (x ++ r)) []

/-- A body segment as produced by component parsing: nonempty, separator-free,
and not one of the special `.` / `..` spellings kept elsewhere. -/
def GoodSeg (s : List Char) : Prop :=
  s ≠ [] ∧ '/' ∉ s ∧ s ≠ ['.'] ∧ s ≠ ['.', '.']

/-- A component that can appear in a path body: a parent-directory marker or a
normal segment. -/
def BodyComp (c : Comp) : Prop :=
  c = Comp.parentDir ∨ ∃ s, c = Comp.normal s ∧ GoodSeg s

/-! ## Theorems: C1 (clean's simplification rules) -/

/-- C1. The claim says `clean` applies the full lexical simplification,
dropping each inner `..` with its preceding segment and a leading `..` on a
rooted path. The code's `ParentDir` branch is an empty `if` (its elimination
logic is commented out), so `..` components pass through untouched:
`clean("/foo/../bar")` is `"/foo/../bar"`, not `"/bar"`, and `clean("/..")` is
`"/.."`, not `"/"`. The claim's concrete examples do hold. -/
theorem clean_keeps_parent_components :
    clean ("/foo/../bar".data) = "/foo/../bar".data ∧
    clean ("/..".data) = "/..".data ∧
    clean ("/foo//bar".data) = "/foo/bar".data ∧
    clean ("".data) = ".".data := by decide

/-! ## Theorems: C2 (abs's relative-path resolution) -/

/-- C2. The claim says a leading `.` (resp. `..`) segment resolves the rest of
the path relative to the working directory (resp. its parent). In the code the
remainder is the sliced string `&path_str[1..]` (resp. `[2..]`), which still
begins with a separator when more segments follow; `PathBuf::join` replaces
the base entirely for such an absolute argument, so with working directory
`/a/b` the call `abs("./foo")` returns `/foo`, not `/a/b/foo`, and
`abs("../foo")` returns `/foo`, not `/a/foo`. -/
theorem abs_dot_segment_discards_cwd :
    abs ("/a/b".data) none ("./foo".data) = Except.ok ("/foo".data) ∧
    abs ("/a/b".data) none ("../foo".data) = Except.ok ("/foo".data) ∧
    "/foo".data ≠ "/a/b/foo".data ∧
    "/foo".data ≠ "/a/foo".data := by decide

/-! ## Theorems: C3 (switchuser's ordering and failure behavior) -/

/-- C3. `switchuser` always issues the group-id call first; when that call
fails it returns the OS error with the identity unchanged and the user-id call
absent from the call list; when it succeeds the call list is exactly group
call then user call. -/
theorem switchuser_group_before_user :
    ∀ (gres ures : Option Nat) (st : Ids) (ru eu su rg eg sg : Nat),
      ((switchuser gres ures st ru eu su rg eg sg).2.2).head?
          = some (SysCall.setres_gid rg eg sg) ∧
      (∀ err, gres = some err →
          switchuser gres ures st ru eu su rg eg sg
            = (Except.error err, st, [SysCall.setres_gid rg eg sg])) ∧
      (gres = none →
          (switchuser gres ures st ru eu su rg eg sg).2.2
            = [SysCall.setres_gid rg eg sg, SysCall.setres_uid ru eu su]) := by
  intro gres ures st ru eu su rg eg sg
  cases gres <;> cases ures <;> simp [switchuser]

/-- Witness for C3: a concrete group-set failure surfaces error 13 and leaves
the identity untouched with no user-id call. -/
theorem switchuser_group_before_user_witness :
    switchuser (some 13) none (Ids.mk 1 2 3 4 5 6) 7 8 9 10 11 12
      = (Except.error 13, Ids.mk 1 2 3 4 5 6, [SysCall.setres_gid 10 11 12]) :=
  (switchuser_group_before_user (some 13) none (Ids.mk 1 2 3 4 5 6) 7 8 9 10 11 12).2.1 13 rfl

/-! ## Theorems: C4 (getrids and the elevation variables) -/

/-- C4, counterexample. The claim conditions the `SUDO_*` lookup on the
CURRENT EFFECTIVE id being 0; the code only inspects its `uid` argument. With
`SUDO_UID=5`, `SUDO_GID=6` and a non-privileged effective id 1000, the claim
predicts `getrids(0, 7) = (0, 7)` while the code parses the variables and
returns `(5, 6)`. -/
theorem getrids_ignores_effective_id :
    getrids (some ("5".data)) (some ("6".data)) 0 7 = (5, 6) ∧
    claim_getrids 1000 (some ("5".data)) (some ("6".data)) 0 7 = (0, 7) ∧
    ((5, 6) : Nat × Nat) ≠ (0, 7) := by decide

/-- C4, amended. `getrids` returns the parsed `SUDO_UID`/`SUDO_GID` values
exactly when its `uid` ARGUMENT is 0 and both variables are present and parse
as `u32`; in every other case it returns `(uid, gid)` unchanged. -/
theorem getrids_uid_argument_spec :
    ∀ (su sg : Option (List Char)) (uid gid : Nat),
      (uid ≠ 0 → getrids su sg uid gid = (uid, gid)) ∧
      (∀ u g nu ng, su = some u → sg = some g →
          parse_u32 u = some nu → parse_u32 g = some ng →
          getrids su sg 0 gid = (nu, ng)) ∧
      ((su.bind parse_u32 = none ∨ sg.bind parse_u32 = none) →
          getrids su sg uid gid = (uid, gid)) := by
  intro su sg uid gid
  refine ⟨?_, ?_, ?_⟩
  · intro h
    cases uid with
    | zero => exact absurd rfl h
    | succ n => simp [getrids]
  · intro u g nu ng hu hg hpu hpg
    subst hu; subst hg
    simp [getrids, hpu, hpg]
  · intro h
    cases uid with
    | succ n => simp [getrids]
    | zero =>
      cases su with
      | none => cases sg <;> simp [getrids]
      | some u =>
        cases sg with
        | none => simp [getrids]
        | some g =>
          cases hpu : parse_u32 u <;> cases hpg : parse_u32 g <;>
              simp [getrids, hpu, hpg] <;> simp [hpu, hpg] at h

/-- Witness for C4's amended theorem: a nonzero uid argument passes through
unchanged even with parseable elevation variables present. -/
theorem getrids_uid_argument_spec_witness :
    getrids (some ("5".data)) (some ("6".data)) 3 9 = (3, 9) :=
  (getrids_uid_argument_spec (some ("5".data)) (some ("6".data)) 3 9).1 (by decide)

/-! ## Theorems: C5 (drop_sudo's privilege test) -/

/-- C5, counterexample. The claim conditions the switch on the EFFECTIVE uid
being 0; the code tests `getuid()`, the REAL uid. In a state with real uid 5
and effective uid 0 (claim-privileged), and `SUDO_UID=SUDO_GID=1000` so the
real pre-elevation uid is 1000, the code is a no-op: it returns success,
issues no identity call, and leaves the uid slots at `(5, 0, 0)` rather than
switching them all to 1000. -/
theorem drop_sudo_checks_real_uid :
    drop_sudo (some ("1000".data)) (some ("1000".data)) none none (Ids.mk 5 0 0 5 0 0)
      = (Except.ok (), Ids.mk 5 0 0 5 0 0, []) ∧
    (Ids.mk 5 0 0 5 0 0).euid = 0 ∧
    getrids (some ("1000".data)) (some ("1000".data)) 0 0 = (1000, 1000) ∧
    (Ids.mk 5 0 0 5 0 0).ruid ≠ 1000 := by decide

/-- C5, amended. When the REAL uid (`getuid()`) is 0 and both primitives
succeed, `drop_sudo` switches all three user slots to the real pre-elevation
uid and all three group slots to the real pre-elevation gid (the `getrids`
values); when the real uid is nonzero it returns success, changes no id, and
issues no identity call. -/
theorem drop_sudo_real_uid_spec :
    ∀ (su sg : Option (List Char)) (gres ures : Option Nat) (st : Ids),
      (st.ruid ≠ 0 → drop_sudo su sg gres ures st = (Except.ok (), st, [])) ∧
      (st.ruid = 0 →
          drop_sudo su sg none none st
            = (Except.ok (),
               Ids.mk (getrids su sg 0 0).1 (getrids su sg 0 0).1 (getrids su sg 0 0).1
                 (getrids su sg 0 0).2 (getrids su sg 0 0).2 (getrids su sg 0 0).2,
               [SysCall.setres_gid (getrids su sg 0 0).2 (getrids su sg 0 0).2
                  (getrids su sg 0 0).2,
                SysCall.setres_uid (getrids su sg 0 0).1 (getrids su sg 0 0).1
                  (getrids su sg 0 0).1])) := by
  intro su sg gres ures st
  constructor
  · intro h
    cases hr : st.ruid with
    | zero => exact absurd hr h
    | succ n => simp [drop_sudo, getuid, hr]
  · intro h
    simp [drop_sudo, getuid, h, switchuser]

/-- Witness for C5's amended theorem: both branches at concrete states. -/
theorem drop_sudo_real_uid_spec_witness :
    drop_sudo none none (some 1) (some 2) (Ids.mk 4 0 0 4 0 0)
        = (Except.ok (), Ids.mk 4 0 0 4 0 0, []) ∧
    drop_sudo none none none none (Ids.mk 0 0 0 0 0 0)
        = (Except.ok (), Ids.mk 0 0 0 0 0 0,
           [SysCall.setres_gid 0 0 0, SysCall.setres_uid 0 0 0]) := by
  constructor
  · exact (drop_sudo_real_uid_spec none none (some 1) (some 2) (Ids.mk 4 0 0 4 0 0)).1
      (by decide)
  · have h := (drop_sudo_real_uid_spec none none none none (Ids.mk 0 0 0 0 0 0)).2 rfl
    simpa using h

/-! ## Theorems: C9 (data_dirs and its unsplit fallback) -/

/-- C9. With `XDG_DATA_DIRS` set, `data_dirs` splits the value on `:`; unset,
it returns the single-element list whose only entry is the unsplit fallback
string — the same string that, had it come through the override path, would
have split into two entries. -/
theorem data_dirs_fallback_unsplit :
    (∀ x, data_dirs (some x) = splitOnChar ':' x) ∧
    data_dirs none = ["/usr/local/share:/usr/share".data] ∧
    (data_dirs none).length = 1 ∧
    data_dirs (some ("/usr/local/share:/usr/share".data))
      = ["/usr/local/share".data, "/usr/share".data] := by
  refine ⟨fun x => rfl, rfl, rfl, by decide⟩

/-! ## Theorems: C10 (starts_with_str is containment) -/

/-- C10. `starts_with_str` computes exactly what `contains_str` computes: true
precisely when the string form contains the given string anywhere (so it is a
containment test, not a prefix test — `"/foo/bar"` "starts with" `"bar"`),
and false when the path cannot be converted to a string. -/
theorem starts_with_str_is_containment :
    (∀ (p : RawPath) (v : List Char),
        starts_with_str p v = contains_str p v ∧
        (∀ s, p.to_string = some s → starts_with_str p v = str_contains s v) ∧
        (p.to_string = none → starts_with_str p v = false ∧ contains_str p v = false)) ∧
    starts_with_str (RawPath.valid ("/foo/bar".data)) "bar".data = true := by
  constructor
  · intro p v
    cases p with
    | valid s =>
      refine ⟨rfl, ?_, ?_⟩
      · intro s' h
        simp [RawPath.to_string] at h
        subst h; rfl
      · intro h
        simp [RawPath.to_string] at h
    | invalid t => exact ⟨rfl, fun s' h => by simp [RawPath.to_string] at h, fun _ => ⟨rfl, rfl⟩⟩
  · decide

/-- Witness for C10: an unconvertible path makes both predicates false. -/
theorem starts_with_str_is_containment_witness :
    starts_with_str (RawPath.invalid 0) "x".data = false :=
  ((starts_with_str_is_containment.1 (RawPath.invalid 0) "x".data).2.2 rfl).1

/-! ## Lemmas about splitting and component parsing -/

theorem splitOnChar_ne_nil (sep : Char) : ∀ p, splitOnChar sep p ≠ [] := by
  intro p
  induction p with
  | nil => simp [splitOnChar]
  | cons c t ih =>
    by_cases h : c = sep
    · simp [splitOnChar, h]
    · cases hs : splitOnChar sep t with
      | nil => exact absurd hs ih
      | cons s ss => simp [splitOnChar, h, hs]

theorem splitOnChar_cons_sep (sep : Char) (t : List Char) :
    splitOnChar sep (sep :: t) = [] :: splitOnChar sep t := by
  simp [splitOnChar]

theorem splitOnChar_cons_ne {c sep : Char} (h : c ≠ sep) (t : List Char) :
    splitOnChar sep (c :: t)
      = (c :: (splitOnChar sep t).headD []) :: (splitOnChar sep t).tail := by
  cases hs : splitOnChar sep t with
  | nil => exact absurd hs (splitOnChar_ne_nil sep t)
  | cons s ss => simp [splitOnChar, h, hs]

theorem mem_splitOnChar_not_sep (sep : Char) :
    ∀ p s, s ∈ splitOnChar sep p → sep ∉ s := by
  intro p
  induction p with
  | nil =>
    intro s hs
    simp [splitOnChar] at hs
    simp [hs]
  | cons c t ih =>
    intro s hs
    by_cases h : c = sep
    · rw [h, splitOnChar_cons_sep] at hs
      rcases List.mem_cons.mp hs with h1 | h1
      · simp [h1]
      · exact ih s h1
    · cases hsp : splitOnChar sep t with
      | nil => exact absurd hsp (splitOnChar_ne_nil sep t)
      | cons s0 ss =>
        rw [splitOnChar_cons_ne h, hsp] at hs
        rcases List.mem_cons.mp hs with h1 | h1
        · subst h1
          intro hmem
          rcases List.mem_cons.mp hmem with h2 | h2
          · exact h h2.symm
          · exact ih s0 (hsp ▸ List.mem_cons_self s0 ss) h2
        · exact ih s (hsp ▸ List.mem_cons.mpr (Or.inr h1))

theorem splitOnChar_no_sep {sep : Char} : ∀ {x : List Char}, sep ∉ x →
    splitOnChar sep x = [x] := by
  intro x
  induction x with
  | nil => intro _; rfl
  | cons a t ih =>
    intro h
    have ha : a ≠ sep := fun hc => h (hc ▸ List.mem_cons_self a t)
    have ht : sep ∉ t := fun hc => h (List.mem_cons.mpr (Or.inr hc))
    rw [splitOnChar_cons_ne ha, ih ht]
    rfl

theorem splitOnChar_append_sep {sep : Char} : ∀ {x : List Char}, sep ∉ x → ∀ r,
    splitOnChar sep (x ++ sep :: r) = x :: splitOnChar sep r := by
  intro x
  induction x with
  | nil => intro _ r; simpa using splitOnChar_cons_sep sep r
  | cons a t ih =>
    intro h r
    have ha : a ≠ sep := fun hc => h (hc ▸ List.mem_cons_self a t)
    have ht : sep ∉ t := fun hc => h (List.mem_cons.mpr (Or.inr hc))
    have : splitOnChar sep ((a :: t) ++ sep :: r) = splitOnChar sep (a :: (t ++ sep :: r)) := rfl
    rw [this, splitOnChar_cons_ne ha, ih ht r]
    rfl

theorem parseSeg_eq_none_iff (s : List Char) : parseSeg? s = none ↔ isJunk s = true := by
  by_cases h1 : s = []
  · simp [parseSeg?, isJunk, h1]
  · by_cases h2 : s = ['.']
    · simp [parseSeg?, isJunk, h1, h2]
    · by_cases h3 : s = ['.', '.'] <;> simp [parseSeg?, isJunk, h1, h2, h3]

theorem rdropJunk_eq_nil_iff (ps : List (List Char)) :
    rdropJunk ps = [] ↔ ∀ s ∈ ps, isJunk s = true := by
  unfold rdropJunk
  rw [List.reverse_eq_nil_iff, List.dropWhile_eq_nil_iff]
  constructor
  · intro h s hs
    exact h s (List.mem_reverse.mpr hs)
  · intro h s hs
    exact h s (List.mem_reverse.mp hs)

theorem filterMap_parseSeg_eq_nil_iff (l : List (List Char)) :
    l.filterMap parseSeg? = [] ↔ ∀ s ∈ l, isJunk s = true := by
  rw [List.filterMap_eq_nil_iff]
  constructor
  · intro h s hs
    exact (parseSeg_eq_none_iff s).mp (h s hs)
  · intro h s hs
    exact (parseSeg_eq_none_iff s).mpr (h s hs)

theorem mem_filterMap_parseSeg {c : Comp} {l : List (List Char)}
    (h : c ∈ l.filterMap parseSeg?) : c ≠ Comp.rootDir ∧ c ≠ Comp.curDir := by
  rcases List.mem_filterMap.mp h with ⟨s, _, hs⟩
  unfold parseSeg? at hs
  by_cases h1 : s = []
  · simp [h1] at hs
  · by_cases h2 : s = ['.']
    · simp [h1, h2] at hs
    · by_cases h3 : s = ['.', '.'] <;> simp [h1, h2, h3] at hs <;> simp [← hs]

theorem includeCurDir_of_hasRoot {p : List Char} (h : hasRoot p = true) :
    includeCurDir p = false := by
  cases p with
  | nil => simp [hasRoot] at h
  | cons c t =>
    simp [hasRoot] at h
    cases t <;> simp [includeCurDir, h]

theorem includeCurDir_cases {p : List Char} (h : includeCurDir p = true) :
    p = ['.'] ∨ ∃ t, p = '.' :: '/' :: t := by
  cases p with
  | nil => simp [includeCurDir] at h
  | cons c t =>
    cases t with
    | nil =>
      simp [includeCurDir] at h
      exact Or.inl (by rw [h])
    | cons d t' =>
      simp [includeCurDir] at h
      exact Or.inr ⟨t', by rw [h.1, h.2]⟩

theorem hasRoot_cases {p : List Char} (h : hasRoot p = true) : ∃ t, p = '/' :: t := by
  cases p with
  | nil => simp [hasRoot] at h
  | cons c t =>
    simp [hasRoot] at h
    exact ⟨t, by rw [h]⟩

/-- The filtered body pieces are the same whether computed from the whole path
or from the part past `lenBeforeBody`: the root separator contributes an empty
piece and the leading current-directory marker a `.` piece, both of which the
filter discards. -/
theorem body_filterMap_eq (p : List Char) :
    (splitOnChar '/' (p.drop (lenBeforeBody p))).filterMap parseSeg?
      = (splitOnChar '/' p).filterMap parseSeg? := by
  by_cases hR : hasRoot p
  · rcases hasRoot_cases hR with ⟨t, rfl⟩
    have hC := includeCurDir_of_hasRoot hR
    rw [lenBeforeBody, hR, hC]
    simp only [if_true, if_false]
    rw [splitOnChar_cons_sep]
    simp [parseSeg?]
  · by_cases hC : includeCurDir p
    · rcases includeCurDir_cases hC with h1 | ⟨t, rfl⟩
      · subst h1; decide
      · have hR' : hasRoot ('.' :: '/' :: t) = false := by simp [hasRoot]
        have hdrop : List.drop (lenBeforeBody ('.' :: '/' :: t)) ('.' :: '/' :: t)
            = '/' :: t := by
          simp [lenBeforeBody, hR', hC]
        rw [hdrop, splitOnChar_cons_sep]
        have hne : ('.' : Char) ≠ '/' := by decide
        rw [splitOnChar_cons_ne hne, splitOnChar_cons_sep]
        simp [parseSeg?]
    · have hdrop : List.drop (lenBeforeBody p) p = p := by
        simp [lenBeforeBody, hR, hC]
      rw [hdrop]

theorem parent_eq_none_iff (p : List Char) :
    parent p = none ↔
      ((splitOnChar '/' p).filterMap parseSeg? = [] ∧ includeCurDir p = false) := by
  rw [← body_filterMap_eq p]
  cases hr : rdropJunk (splitOnChar '/' (p.drop (lenBeforeBody p))) with
  | nil =>
    have hall := (rdropJunk_eq_nil_iff _).mp hr
    rw [filterMap_parseSeg_eq_nil_iff]
    by_cases hC : includeCurDir p
    · simp [parent, hr, hC]
    · have hC' : includeCurDir p = false := by
        revert hC; cases includeCurDir p <;> simp
      have hp : parent p = none := by simp [parent, hr, hC']
      rw [hp]
      constructor
      · intro _
        exact ⟨hall, hC'⟩
      · intro _
        rfl
  | cons s ss =>
    have hne : ¬ (splitOnChar '/' (p.drop (lenBeforeBody p))).filterMap parseSeg? = [] := by
      intro h
      have h0 : rdropJunk (splitOnChar '/' (p.drop (lenBeforeBody p))) = [] :=
        (rdropJunk_eq_nil_iff _).mpr ((filterMap_parseSeg_eq_nil_iff _).mp h)
      rw [hr] at h0
      exact absurd h0 (by simp)
    simp [parent, hr, hne]

/-! ## Theorems: C6 (dirname and missing parents) -/

/-- C6, counterexample. The claim says a single separator-free segment has no
parent and `dirname("foo")` fails with `ParentNotFound`; `Path::parent` yields
`Some("")` for `"foo"`, so the code returns the empty path, not an error. -/
theorem dirname_single_segment :
    dirname ("foo".data) = Except.ok [] ∧
    (Except.ok ([] : List Char) : Except PathError (List Char))
      ≠ Except.error PathError.parentNotFound := by decide

/-- C6, amended. `dirname` returns the path without its final component and
fails with `ParentNotFound` exactly when the path has no components at all
(the empty path) or consists solely of the root; a single separator-free
segment is NOT an error — its parent is the empty path. -/
theorem dirname_error_characterization :
    (∀ p, dirname p = Except.error PathError.parentNotFound ↔
        (components p = [] ∨ components p = [Comp.rootDir])) ∧
    dirname ("/foo/bar".data) = Except.ok ("/foo".data) ∧
    dirname ("/".data) = Except.error PathError.parentNotFound ∧
    dirname ("foo".data) = Except.ok [] := by
  refine ⟨?_, by decide, by decide, by decide⟩
  intro p
  have hd : dirname p = Except.error PathError.parentNotFound ↔ parent p = none := by
    cases hp : parent p <;> simp [dirname, hp]
  rw [hd, parent_eq_none_iff]
  by_cases hR : hasRoot p
  · have hC := includeCurDir_of_hasRoot hR
    have hcomp : components p = Comp.rootDir :: (splitOnChar '/' p).filterMap parseSeg? := by
      simp [components, hR]
    rw [hcomp]
    constructor
    · intro h
      rw [h.1]
      simp
    · intro h
      rcases h with h | h
      · exact absurd h (by simp)
      · exact ⟨(List.cons.inj h).2, hC⟩
  · by_cases hCt : includeCurDir p
    · have hcomp : components p = Comp.curDir :: (splitOnChar '/' p).filterMap parseSeg? := by
        simp [components, hR, hCt]
      rw [hcomp]
      constructor
      · intro h
        rw [h.2] at hCt
        exact absurd hCt (by simp)
      · intro h
        rcases h with h | h
        · exact absurd h (by simp)
        · exact absurd (List.cons.inj h).1 (by simp)
    · have hC' : includeCurDir p = false := by
        revert hCt; cases includeCurDir p <;> simp
      have hcomp : components p = (splitOnChar '/' p).filterMap parseSeg? := by
        simp [components, hR, hC']
      rw [hcomp]
      constructor
      · intro h
        exact Or.inl h.1
      · intro h
        refine ⟨?_, hC'⟩
        rcases h with h | h
        · exact h
        · have hmem : Comp.rootDir ∈ (splitOnChar '/' p).filterMap parseSeg? := by
            rw [h]
            exact List.mem_cons_self _ _
          exact absurd rfl (mem_filterMap_parseSeg hmem).1

/-- Witness for C6's amended theorem: the root is exactly a no-parent case. -/
theorem dirname_error_characterization_witness :
    dirname ("//".data) = Except.error PathError.parentNotFound :=
  (dirname_error_characterization.1 ("//".data)).mpr (Or.inr (by decide))

/-! ## Theorems: C7 (trim_protocol) -/

/-- C7, counterexample. The claim says a non-matching path passes through with
its original characters preserved. The code lowercases the whole string before
(and regardless of) stripping, so `trim_protocol("/X")` is `"/x"`, not `"/X"`. -/
theorem trim_protocol_lowercases :
    trim_protocol ("/X".data) = "/x".data ∧ "/x".data ≠ "/X".data := by decide

theorem trim_start_matches_str_of_no_match {pat s : List Char}
    (h : pat.isPrefixOf s = false) : trim_start_matches_str pat s = s := by
  cases hl : s.length with
  | zero => simp [trim_start_matches_str, hl, stripStartFuel]
  | succ n =>
    simp only [trim_start_matches_str, hl, stripStartFuel]
    rw [if_neg]
    intro hc
    rw [h] at hc
    exact absurd hc.2 (by simp)

/-- C7, amended. `trim_protocol` lowercases the entire path and then
repeatedly strips leading `file://`, `ftp://`, `http://`, `https://`
prefixes; a path whose lowercased form carries none of these prefixes is
returned lowercased (so original characters are preserved only when they are
already lowercase). The claim's two concrete examples do hold. -/
theorem trim_protocol_amended :
    (∀ p, (∀ pre ∈ protoPrefixes, pre.isPrefixOf (to_lowercase p) = false) →
        trim_protocol p = to_lowercase p) ∧
    trim_protocol ("HTTPS://x".data) = "x".data ∧
    trim_protocol ("/x".data) = "/x".data := by
  refine ⟨?_, by decide, by decide⟩
  intro p h
  have h1 := h ("file://".data) (by simp [protoPrefixes])
  have h2 := h ("ftp://".data) (by simp [protoPrefixes])
  have h3 := h ("http://".data) (by simp [protoPrefixes])
  have h4 := h ("https://".data) (by simp [protoPrefixes])
  simp only [trim_protocol]
  rw [trim_start_matches_str_of_no_match h1, trim_start_matches_str_of_no_match h2,
    trim_start_matches_str_of_no_match h3, trim_start_matches_str_of_no_match h4]

/-- Witness for C7's amended theorem: a prefix-free path comes back
lowercased. -/
theorem trim_protocol_amended_witness :
    trim_protocol ("/aB".data) = to_lowercase ("/aB".data) :=
  trim_protocol_amended.1 ("/aB".data) (by decide)

/-! ## Lemmas for clean's round trip: rendering and re-parsing components -/

theorem bodyComp_compStr {c : Comp} (hc : BodyComp c) :
    compStr c ≠ [] ∧ '/' ∉ compStr c ∧ parseSeg? (compStr c) = some c := by
  rcases hc with hp | ⟨s, rfl, hne, hns, hdot, hdd⟩
  · subst hp
    exact ⟨by decide, by decide, by decide⟩
  · exact ⟨hne, hns, by simp [parseSeg?, compStr, hne, hdot, hdd]⟩

theorem getLast?_ne_slash {x : List Char} (hns : '/' ∉ x) : x.getLast? ≠ some '/' := by
  intro hc
  rcases List.mem_getLast?_eq_getLast (Option.mem_def.mpr hc) with ⟨h, heq⟩
  exact hns (heq ▸ List.getLast_mem h)

theorem hasRoot_body_head {x : List Char} (hne : x ≠ []) (hns : '/' ∉ x) (X : List Char) :
    hasRoot (x ++ X) = false := by
  cases x with
  | nil => exact absurd rfl hne
  | cons a u =>
    have ha : a ≠ '/' := fun hc => hns (hc ▸ List.mem_cons_self a u)
    simp [hasRoot, ha]

theorem concatSep_shape (ss : List (List Char)) :
    concatSep ss = [] ∨ ∃ Y, concatSep ss = '/' :: Y := by
  cases ss with
  | nil => exact Or.inl rfl
  | cons y ys => exact Or.inr ⟨y ++ concatSep ys, by simp [concatSep]⟩

theorem includeCurDir_body_head {c : Comp} (hc : BodyComp c) (X : List Char)
    (hX : X = [] ∨ ∃ Y, X = '/' :: Y) :
    includeCurDir (compStr c ++ X) = false := by
  rcases hc with hp | ⟨s, rfl, hne, hns, hdot, hdd⟩
  · subst hp
    simp [compStr, includeCurDir]
  · cases s with
    | nil => exact absurd rfl hne
    | cons a u =>
      cases u with
      | nil =>
        have ha : a ≠ '.' := fun hc' => hdot (by rw [hc'])
        rcases hX with rfl | ⟨Y, rfl⟩
        · simp [compStr, includeCurDir, ha]
        · simp [compStr, includeCurDir, ha]
      | cons b u' =>
        have hb : b ≠ '/' := fun hc' =>
          hns (by rw [hc']; exact List.mem_cons.mpr (Or.inr (List.mem_cons_self _ _)))
        simp [compStr, includeCurDir, hb]

theorem foldl_push_body :
    ∀ (ts : List Comp) (buf : List Char), (∀ c ∈ ts, BodyComp c) → buf ≠ [] →
      buf.getLast? ≠ some '/' →
      List.foldl (fun b c => push b (compStr c)) buf ts
        = buf ++ concatSep (ts.map compStr) := by
  intro ts
  induction ts with
  | nil =>
    intro buf _ _ _
    simp [concatSep]
  | cons c ts ih =>
    intro buf h hbne hblast
    have hc := bodyComp_compStr (h c (List.mem_cons_self c ts))
    have hts : ∀ d ∈ ts, BodyComp d := fun d hd => h d (List.mem_cons.mpr (Or.inr hd))
    have hroot : hasRoot (compStr c) = false := by
      have := hasRoot_body_head hc.1 hc.2.1 []
      simpa using this
    have hneed : needSep buf = true := by
      cases hgl : buf.getLast? with
      | none =>
        exact absurd (List.getLast?_eq_none_iff.mp hgl) hbne
      | some l =>
        have hl : l ≠ '/' := fun hc' => hblast (by rw [hgl, hc'])
        simp [needSep, hgl, hl]
    have hpush : push buf (compStr c) = buf ++ '/' :: compStr c := by
      simp [push, hroot, hneed]
    rw [List.foldl_cons, hpush,
      ih (buf ++ '/' :: compStr c) hts (by simp)
        (by
          have hx : (buf ++ '/' :: compStr c).getLast? = (compStr c).getLast? := by
            have : buf ++ '/' :: compStr c = (buf ++ ['/']) ++ compStr c := by simp
            rw [this, List.getLast?_append_of_ne_nil _ hc.1]
          rw [hx]
          exact getLast?_ne_slash hc.2.1)]
    simp [concatSep, List.append_assoc]

theorem push_nil_buf (x : List Char) : push [] x = x := by
  by_cases h : hasRoot x <;> simp [push, needSep, h]

theorem renderComps_nonroot_head {c : Comp} {ts : List Comp}
    (hct1 : compStr c ≠ []) (hct2 : '/' ∉ compStr c) (h : ∀ d ∈ ts, BodyComp d) :
    renderComps (c :: ts) = compStr c ++ concatSep (ts.map compStr) := by
  unfold renderComps
  rw [List.foldl_cons, push_nil_buf]
  exact foldl_push_body ts (compStr c) h hct1 (getLast?_ne_slash hct2)

theorem renderComps_root_cons (c : Comp) (ts : List Comp) (hc : BodyComp c)
    (h : ∀ d ∈ ts, BodyComp d) :
    renderComps (Comp.rootDir :: c :: ts)
      = '/' :: (compStr c ++ concatSep (ts.map compStr)) := by
  have hcs := bodyComp_compStr hc
  have hroot : hasRoot (compStr c) = false := by
    have := hasRoot_body_head hcs.1 hcs.2.1 []
    simpa using this
  unfold renderComps
  rw [List.foldl_cons, List.foldl_cons]
  have h1 : push [] (compStr Comp.rootDir) = ['/'] := by decide
  rw [h1]
  have h2 : push ['/'] (compStr c) = '/' :: compStr c := by
    simp [push, hroot, needSep]
  rw [h2]
  rw [foldl_push_body ts ('/' :: compStr c) h (by simp)
    (by
      have hx : ('/' :: compStr c).getLast? = (compStr c).getLast? := by
        have : '/' :: compStr c = ['/'] ++ compStr c := rfl
        rw [this, List.getLast?_append_of_ne_nil _ hcs.1]
      rw [hx]
      exact getLast?_ne_slash hcs.2.1)]
  simp

theorem split_concatSep : ∀ (ss : List (List Char)) (x0 : List Char), '/' ∉ x0 →
    (∀ x ∈ ss, '/' ∉ x) →
    splitOnChar '/' (x0 ++ concatSep ss) = x0 :: ss := by
  intro ss
  induction ss with
  | nil =>
    intro x0 h0 _
    have : concatSep [] = ([] : List Char) := rfl
    rw [this, List.append_nil]
    exact splitOnChar_no_sep h0
  | cons y ss ih =>
    intro x0 h0 h
    have hy : '/' ∉ y := h y (List.mem_cons_self y ss)
    have hss : ∀ x ∈ ss, '/' ∉ x := fun x hx => h x (List.mem_cons.mpr (Or.inr hx))
    have hshape : x0 ++ concatSep (y :: ss) = x0 ++ '/' :: (y ++ concatSep ss) := by
      simp [concatSep]
    rw [hshape, splitOnChar_append_sep h0, ih y hy hss]

theorem filterMap_parseSeg_map : ∀ (ts : List Comp), (∀ c ∈ ts, BodyComp c) →
    (ts.map compStr).filterMap parseSeg? = ts := by
  intro ts
  induction ts with
  | nil => intro _; rfl
  | cons c ts ih =>
    intro h
    have hc := bodyComp_compStr (h c (List.mem_cons_self c ts))
    have hts : ∀ d ∈ ts, BodyComp d := fun d hd => h d (List.mem_cons.mpr (Or.inr hd))
    simp only [List.map_cons, List.filterMap_cons, hc.2.2]
    rw [ih hts]

theorem body_no_slash {ts : List Comp} (h : ∀ d ∈ ts, BodyComp d) :
    ∀ x ∈ ts.map compStr, '/' ∉ x := by
  intro x hx
  rcases List.mem_map.mp hx with ⟨d, hd, rfl⟩
  exact (bodyComp_compStr (h d hd)).2.1

theorem components_render_root (ts : List Comp) (h : ∀ c ∈ ts, BodyComp c) :
    components (renderComps (Comp.rootDir :: ts)) = Comp.rootDir :: ts := by
  cases ts with
  | nil => decide
  | cons c ts' =>
    have hc := h c (List.mem_cons_self c ts')
    have hcs := bodyComp_compStr hc
    have hts' : ∀ d ∈ ts', BodyComp d := fun d hd => h d (List.mem_cons.mpr (Or.inr hd))
    rw [renderComps_root_cons c ts' hc hts']
    have hsplit : splitOnChar '/' ('/' :: (compStr c ++ concatSep (ts'.map compStr)))
        = [] :: compStr c :: ts'.map compStr := by
      rw [splitOnChar_cons_sep, split_concatSep (ts'.map compStr) _ hcs.2.1 (body_no_slash hts')]
    unfold components
    rw [hsplit]
    have hfm : ([] :: compStr c :: ts'.map compStr).filterMap parseSeg? = c :: ts' := by
      simp only [List.filterMap_cons]
      have h0 : parseSeg? [] = none := rfl
      rw [h0, hcs.2.2]
      have : (ts'.map compStr).filterMap parseSeg? = ts' := filterMap_parseSeg_map ts' hts'
      rw [this]
    rw [hfm]
    simp [hasRoot]

theorem components_render_cur (ts : List Comp) (h : ∀ c ∈ ts, BodyComp c) :
    components (renderComps (Comp.curDir :: ts)) = Comp.curDir :: ts := by
  cases ts with
  | nil => decide
  | cons c ts' =>
    have hc := h c (List.mem_cons_self c ts')
    have hcs := bodyComp_compStr hc
    have hts' : ∀ d ∈ ts', BodyComp d := fun d hd => h d (List.mem_cons.mpr (Or.inr hd))
    rw [renderComps_nonroot_head (by decide) (by decide) h]
    have hshape : compStr Comp.curDir ++ concatSep ((c :: ts').map compStr)
        = '.' :: '/' :: (compStr c ++ concatSep (ts'.map compStr)) := by
      simp [compStr, concatSep]
    rw [hshape]
    have hne : ('.' : Char) ≠ '/' := by decide
    have hsplit : splitOnChar '/' ('.' :: '/' :: (compStr c ++ concatSep (ts'.map compStr)))
        = ['.'] :: compStr c :: ts'.map compStr := by
      rw [splitOnChar_cons_ne hne, splitOnChar_cons_sep,
        split_concatSep (ts'.map compStr) _ hcs.2.1 (body_no_slash hts')]
      rfl
    unfold components
    rw [hsplit]
    have hfm : (['.'] :: compStr c :: ts'.map compStr).filterMap parseSeg? = c :: ts' := by
      simp only [List.filterMap_cons]
      have h0 : parseSeg? ['.'] = none := rfl
      rw [h0, hcs.2.2, filterMap_parseSeg_map ts' hts']
    rw [hfm]
    simp [hasRoot, includeCurDir]

theorem components_render_body (c : Comp) (ts : List Comp) (hc : BodyComp c)
    (h : ∀ d ∈ ts, BodyComp d) :
    components (renderComps (c :: ts)) = c :: ts := by
  have hcs := bodyComp_compStr hc
  rw [renderComps_nonroot_head hcs.1 hcs.2.1 h]
  have hsplit : splitOnChar '/' (compStr c ++ concatSep (ts.map compStr))
      = compStr c :: ts.map compStr :=
    split_concatSep (ts.map compStr) _ hcs.2.1 (body_no_slash h)
  unfold components
  rw [hsplit]
  have hfm : (compStr c :: ts.map compStr).filterMap parseSeg? = c :: ts := by
    simp only [List.filterMap_cons, hcs.2.2]
    rw [filterMap_parseSeg_map ts h]
  rw [hfm]
  rw [hasRoot_body_head hcs.1 hcs.2.1 _,
    includeCurDir_body_head hc _ (concatSep_shape (ts.map compStr))]
  simp

theorem components_body_all (p : List Char) :
    ∀ c ∈ (splitOnChar '/' p).filterMap parseSeg?, BodyComp c := by
  intro c hc
  rcases List.mem_filterMap.mp hc with ⟨s, hsmem, hs⟩
  have hns : '/' ∉ s := mem_splitOnChar_not_sep '/' p s hsmem
  unfold parseSeg? at hs
  by_cases h1 : s = []
  · simp [h1] at hs
  · by_cases h2 : s = ['.']
    · simp [h1, h2] at hs
    · by_cases h3 : s = ['.', '.']
      · simp [h1, h2, h3] at hs
        exact Or.inl hs.symm
      · simp [h1, h2, h3] at hs
        exact Or.inr ⟨s, hs.symm, h1, hns, h2, h3⟩

theorem clean_of_components {p : List Char} {cs : List Comp} (hcomp : components p = cs)
    (hne : renderComps cs ≠ []) (hrt : components (renderComps cs) = cs) :
    clean (clean p) = clean p := by
  have hclean : clean p = renderComps cs := by
    unfold clean
    rw [hcomp]
    simp [hne]
  rw [hclean]
  unfold clean
  rw [hrt]
  simp [hne]

/-! ## Theorems: C8 (clean is idempotent) -/

/-- C8. `clean` is idempotent: rendering a component list and parsing it back
yields the same components, so a second `clean` changes nothing. -/
theorem clean_idempotent : ∀ p, clean (clean p) = clean p := by
  intro p
  have hall := components_body_all p
  by_cases hR : hasRoot p
  · have hcomp : components p
        = Comp.rootDir :: (splitOnChar '/' p).filterMap parseSeg? := by
      simp [components, hR]
    refine clean_of_components hcomp ?_ (components_render_root _ hall)
    cases hB : (splitOnChar '/' p).filterMap parseSeg? with
    | nil => decide
    | cons c ts' =>
      rw [renderComps_root_cons c ts' (hall c (hB ▸ List.mem_cons_self c ts'))
        (fun d hd => hall d (hB ▸ List.mem_cons.mpr (Or.inr hd)))]
      simp
  · by_cases hC : includeCurDir p
    · have hcomp : components p
          = Comp.curDir :: (splitOnChar '/' p).filterMap parseSeg? := by
        simp [components, hR, hC]
      refine clean_of_components hcomp ?_ (components_render_cur _ hall)
      rw [renderComps_nonroot_head (by decide) (by decide) hall]
      simp [compStr]
    · have hC' : includeCurDir p = false := by
        revert hC
        cases includeCurDir p <;> simp
      have hcomp : components p = (splitOnChar '/' p).filterMap parseSeg? := by
        simp [components, hR, hC']
      cases hB : (splitOnChar '/' p).filterMap parseSeg? with
      | nil =>
        have hclean : clean p = ['.'] := by
          unfold clean
          rw [hcomp, hB]
          rfl
        rw [hclean]
        decide
      | cons c ts' =>
        have hc : BodyComp c := hall c (hB ▸ List.mem_cons_self c ts')
        have hts' : ∀ d ∈ ts', BodyComp d :=
          fun d hd => hall d (hB ▸ List.mem_cons.mpr (Or.inr hd))
        have hcs := bodyComp_compStr hc
        refine clean_of_components (hcomp.trans hB) ?_
          (components_render_body c ts' hc hts')
        rw [renderComps_nonroot_head hcs.1 hcs.2.1 hts']
        cases hx : compStr c with
        | nil => exact absurd hx hcs.1
        | cons a u => simp

end Rs
